import Mathlib

/-!
Shallow embedding of the game-rules service of the battleship repository
(src/backend/game-rules-service/src/index.ts) together with the parts of
its environment the theorems need.  Sets of coordinates are modelled as
lists in insertion order (the JS code uses Set, whose observations here
are membership and iteration in insertion order); the per-room player map
is modelled as a function from player id to an optional player state.
-/

namespace Battleship

/-- The fixed grid rows accepted by the regex character class [A-D] in
coordToTuple. -/
def rowChars : List Char := ['A', 'B', 'C', 'D']

/-- The fixed grid columns accepted by the regex character class [1-4] in
coordToTuple. -/
def colChars : List Char := ['1', '2', '3', '4']

/-- Embedding of coordToTuple: the regex match against A-D and 1-4 with the
two arithmetic conversions; returns none where the source throws the
Out-of-bounds error. -/
def coordToTuple (coord : String) : Option (Nat × Nat) :=
  match coord.data with
  | [r, c] =>
    if r ∈ rowChars ∧ c ∈ colChars then some (r.toNat - 65, c.toNat - 49)
    else none
  | _ => none

/-- Embedding of the JS toUpperCase call on an ASCII coordinate string:
uppercase every character. -/
def toUpperCase (s : String) : String := String.mk (s.data.map Char.toUpper)

/-- A from/to span as sent in the place body. -/
structure Ship where
  fromC : String
  toC : String
deriving DecidableEq, Repr

/-- Embedding of String.fromCharCode(65 + r) + String(c + 1) for the
single-digit columns of this grid. -/
def cellName (r c : Nat) : String := String.mk [Char.ofNat (65 + r), Char.ofNat (49 + c)]

/-- Embedding of enumerateShipCells: parse both endpoints, require a shared
row or column, then walk the covered range; none where the source throws. -/
def enumerateShipCells (s : Ship) : Option (List String) :=
  match coordToTuple s.fromC with
  | none => none
  | some (r1, c1) =>
    match coordToTuple s.toC with
    | none => none
    | some (r2, c2) =>
      if r1 ≠ r2 ∧ c1 ≠ c2 then none
      else if r1 = r2 then
        some ((List.range (max c1 c2 + 1 - min c1 c2)).map
          (fun i => cellName r1 (min c1 c2 + i)))
      else
        some ((List.range (max r1 r2 + 1 - min r1 r2)).map
          (fun i => cellName (min r1 r2 + i) c1))

/-- Insert each cell into the accumulated set, failing on a duplicate: the
inner loop of the place handler that throws the Overlap error. -/
def insertCells (acc : List String) : List String → Option (List String)
  | [] => some acc
  | c :: cs => if c ∈ acc then none else insertCells (acc ++ [c]) cs

/-- The cells loop of the place handler over the whole shipCoords array:
enumerate each ship and accumulate with the duplicate check. -/
def collectCellsAux (acc : List String) : List Ship → Option (List String)
  | [] => some acc
  | s :: rest =>
    match enumerateShipCells s with
    | none => none
    | some cells =>
      match insertCells acc cells with
      | none => none
      | some acc2 => collectCellsAux acc2 rest

/-- The covered cell set of the whole shipCoords array, none where the
handler replies Invalid ship placement. -/
def collectCells (ships : List Ship) : Option (List String) :=
  collectCellsAux [] ships

/-- Per-player engine state: shipsPlaced, shipCells, hitsTaken. -/
structure PlayerState where
  shipsPlaced : Bool
  shipCells : List String
  hitsTaken : List String
deriving DecidableEq, Repr

/-- The fresh player state the place handler builds when the map has no
entry for the player. -/
def freshPS : PlayerState := { shipsPlaced := false, shipCells := [], hitsTaken := [] }

/-- The room snapshot fetched from the Room Registry: players and the
creation-time turn seed. -/
structure RoomInfo where
  players : List String
  turn : String
deriving DecidableEq, Repr

/-- The per-room engine session: cached players, engine-local turn, and the
player map. -/
structure RoomGameState where
  players : List String
  turn : String
  playerState : String → Option PlayerState

/-- Functional update of the player map, as rooms-map set does for one key. -/
def setPS (m : String → Option PlayerState) (k : String) (v : PlayerState) :
    String → Option PlayerState :=
  fun q => if q = k then some v else m q

/-- JS Set.add on the insertion-ordered list model. -/
def addHit (hits : List String) (c : String) : List String :=
  if c ∈ hits then hits else hits ++ [c]

/-- Lookup of one player in an optional session. -/
def lookupPS (s? : Option RoomGameState) (pid : String) : Option PlayerState :=
  s?.bind fun s => s.playerState pid

inductive PlaceError
  | invalidBody
  | roomNotFound
  | notInRoom
  | alreadyPlaced
  | invalidPlacement
  | cellOccupied
deriving DecidableEq, Repr

inductive FireError
  | invalidBody
  | roomNotFound
  | notInRoom
  | noSession
  | notYourTurn
  | opponentNotReady
  | outOfBounds
deriving DecidableEq, Repr

inductive FireOutcome
  | hit
  | miss
  | sink
deriving DecidableEq, Repr

/-- The body of the 200 reply of the fire handler. -/
structure FireResp where
  result : FireOutcome
  gameOver : Bool
  nextTurn : String
deriving DecidableEq, Repr

/-- The session the place handler works on: the existing one, or a lazily
created one seeded from the fetched room, in both cases with the players
list synced from the fetched room. -/
def seedSession (room : RoomInfo) (s? : Option RoomGameState) : RoomGameState :=
  { s?.getD { players := room.players, turn := room.turn, playerState := fun _ => none } with
      players := room.players }

/-- The tail of the place handler once the body is valid, the room is
fetched, the caller is a member and the session is seeded and synced:
write-once check, cell expansion, opponent-occupancy check, commit. -/
def placeChecked (room : RoomInfo) (s1 : RoomGameState) (pid : String) (ships : List Ship) :
    Option RoomGameState × Except PlaceError Unit :=
  let ps := (s1.playerState pid).getD freshPS
  if ps.shipsPlaced then (some s1, .error .alreadyPlaced)
  else
    match collectCells ships with
    | none => (some s1, .error .invalidPlacement)
    | some cells =>
      let occupied :=
        match room.players.find? (fun q => q != pid) with
        | some opp =>
          match s1.playerState opp with
          | some oppSt => cells.any (fun c => oppSt.shipCells.contains c)
          | none => false
        | none => false
      if occupied then (some s1, .error .cellOccupied)
      else
        (some { s1 with
                  playerState := setPS s1.playerState pid
                    { ps with shipCells := cells, shipsPlaced := true } },
         .ok ())

/-- Embedding of the place handler after the route match, given the fetched
room: body validation, membership, lazy session creation, players sync,
then the checked tail.  The first component is the session stored in the
rooms map after the call. -/
def place (room : RoomInfo) (s? : Option RoomGameState) (pid : String) (ships : List Ship) :
    Option RoomGameState × Except PlaceError Unit :=
  if pid = "" ∨ ships.length ≠ 1 then (s?, .error .invalidBody)
  else if pid ∈ room.players then placeChecked room (seedSession room s?) pid ships
  else (s?, .error .notInRoom)

/-- Embedding of the fire handler after the route match, given the fetched
room: body validation, membership, session existence, players sync, turn
check, opponent readiness, coordinate canonicalization and parse, shot
resolution, turn advance.  The first component is the session stored in the
rooms map after the call. -/
def fire (room : RoomInfo) (s? : Option RoomGameState) (pid coord : String) :
    Option RoomGameState × Except FireError FireResp :=
  if pid = "" then (s?, .error .invalidBody)
  else if pid ∈ room.players then
    match s? with
    | none => (none, .error .noSession)
    | some s =>
      let s1 := { s with players := room.players }
      if s1.turn ≠ pid then (some s1, .error .notYourTurn)
      else
        match room.players.find? (fun q => q != pid) with
        | none => (some s1, .error .opponentNotReady)
        | some opp =>
          match s1.playerState opp with
          | none => (some s1, .error .opponentNotReady)
          | some oppSt =>
            if oppSt.shipsPlaced then
              let C := toUpperCase coord
              match coordToTuple C with
              | none => (some s1, .error .outOfBounds)
              | some _ =>
                if C ∈ oppSt.shipCells then
                  let oppSt' := { oppSt with hitsTaken := addHit oppSt.hitsTaken C }
                  let allHit := oppSt'.shipCells.all (fun c => oppSt'.hitsTaken.contains c)
                  (some { s1 with turn := opp, playerState := setPS s1.playerState opp oppSt' },
                   .ok { result := if allHit then .sink else .hit,
                         gameOver := allHit, nextTurn := opp })
                else
                  (some { s1 with turn := opp },
                   .ok { result := .miss,
                         gameOver := oppSt.shipCells.all (fun c => oppSt.hitsTaken.contains c),
                         nextTurn := opp })
            else (some s1, .error .opponentNotReady)
  else (s?, .error .notInRoom)

/-- The fire handler including the room fetch: a missing room is the 404
reply before any session access. -/
def fireFull (room? : Option RoomInfo) (s? : Option RoomGameState) (pid coord : String) :
    Option RoomGameState × Except FireError FireResp :=
  match room? with
  | none => (s?, .error .roomNotFound)
  | some room => fire room s? pid coord

/-- The events the socket fire handler emits to the room topic. -/
inductive ChanEvent
  | fireResult (shooterId coord : String) (result : FireOutcome)
  | turnChange (pid : String)
  | gameOverEvt (winnerId : String)
deriving DecidableEq, Repr

/-- Embedding of the socket fire handler: re-enter the HTTP fire handler,
then recompute result, gameOver and next mover from the post-call session
(after a second players sync from a fresh room fetch) and broadcast the
fire-result event, then the turn-change or the game-over event.  room1? is
the room snapshot the HTTP handler fetches, room2? the snapshot the socket
handler fetches afterwards. -/
def socketFire (room1? room2? : Option RoomInfo) (s? : Option RoomGameState)
    (shooter coord : String) : Option RoomGameState × List ChanEvent :=
  let s1? := (fireFull room1? s? shooter coord).1
  let s2? :=
    match s1?, room2? with
    | some s1, some r2 => some { s1 with players := r2.players }
    | _, _ => s1?
  let opp? := s2?.bind fun s => s.players.find? (fun q => q != shooter)
  let oppSt? :=
    match s2?, opp? with
    | some s, some o => s.playerState o
    | _, _ => none
  let C := toUpperCase coord
  let isHit :=
    match oppSt? with
    | some os => decide (C ∈ os.shipCells)
    | none => false
  let allHit :=
    match oppSt? with
    | some os => os.shipCells.all (fun c => os.hitsTaken.contains c)
    | none => false
  let result : FireOutcome := if isHit then .hit else .miss
  (s2?,
    [ChanEvent.fireResult shooter coord result]
      ++ (match opp? with
          | some o => if allHit then [] else [ChanEvent.turnChange o]
          | none => [])
      ++ (if allHit then [ChanEvent.gameOverEvt shooter] else []))

/-- One engine command against a session, used to reason about every
reachable session state. -/
inductive Op
  | placeOp (room : RoomInfo) (pid : String) (ships : List Ship)
  | fireOp (room : RoomInfo) (pid coord : String)

/-- Apply one command to the stored session, keeping the stored state. -/
def applyOp (s? : Option RoomGameState) : Op → Option RoomGameState
  | .placeOp room pid ships => (place room s? pid ships).1
  | .fireOp room pid coord => (fire room s? pid coord).1

/-- Run a sequence of commands against the stored session. -/
def runOps (s? : Option RoomGameState) (ops : List Op) : Option RoomGameState :=
  ops.foldl applyOp s?

/-- The frame of a fire call: the fields of a session it may write and the
fields it never writes. -/
def FireFrame (room : RoomInfo) (s t : RoomGameState) (pid : String) : Prop :=
  (∀ q, (t.playerState q).map PlayerState.shipsPlaced =
    (s.playerState q).map PlayerState.shipsPlaced) ∧
  (∀ q, (t.playerState q).map PlayerState.shipCells =
    (s.playerState q).map PlayerState.shipCells) ∧
  ((t.playerState pid).map PlayerState.hitsTaken =
    (s.playerState pid).map PlayerState.hitsTaken) ∧
  (∀ q, room.players.find? (fun w => w != pid) ≠ some q →
    (t.playerState q).map PlayerState.hitsTaken =
      (s.playerState q).map PlayerState.hitsTaken) ∧
  (t.players = s.players ∨ t.players = room.players) ∧
  (pid ≠ "" → pid ∈ room.players → t.players = room.players) ∧
  (t.turn = s.turn ∨ room.players.find? (fun w => w != pid) = some t.turn)

/-- The inductive session invariant: every stored player entry has placed
and its recorded hits lie inside its ship cells. -/
def GoodState (s : RoomGameState) : Prop :=
  ∀ pid ps, s.playerState pid = some ps →
    ps.shipsPlaced = true ∧ ∀ c ∈ ps.hitsTaken, c ∈ ps.shipCells

/-- The invariant on the optionally existing session. -/
def GoodOpt : Option RoomGameState → Prop
  | none => True
  | some s => GoodState s

/-! Concrete states used by witnesses and counterexamples: a two-player room
in which each player has placed the single-cell ship the handler accepts,
P1 on A1 and P2 on B2, with the turn on P1. -/

def exRoom : RoomInfo := { players := ["P1", "P2"], turn := "P1" }

def exPsA : PlayerState := { shipsPlaced := true, shipCells := ["A1"], hitsTaken := [] }

def exPsB : PlayerState := { shipsPlaced := true, shipCells := ["B2"], hitsTaken := [] }

def exSt : RoomGameState :=
  { players := ["P1", "P2"]
    turn := "P1"
    playerState := fun q => if q = "P1" then some exPsA else if q = "P2" then some exPsB else none }

/-- The session after P1 fires at B2: the shot sinks the P2 ship and the
turn moves to P2. -/
def exStAfter : RoomGameState :=
  { players := ["P1", "P2"]
    turn := "P2"
    playerState := setPS exSt.playerState "P2"
      { shipsPlaced := true, shipCells := ["B2"], hitsTaken := ["B2"] } }

/-! Helper lemmas about the opponent lookup. -/

theorem find?_opp_ne {l : List String} {pid opp : String}
    (h : l.find? (fun q => q != pid) = some opp) : opp ≠ pid := by
  have hb := List.find?_some h
  simpa using hb

theorem find?_opp_mem {l : List String} {pid opp : String}
    (h : l.find? (fun q => q != pid) = some opp) : opp ∈ l :=
  List.mem_of_find?_eq_some h

/-- Equational description of a fire call whose preconditions all hold: the
branch of the handler from the shot resolution on. -/
theorem fire_eq_of {room : RoomInfo} {s : RoomGameState} {pid coord opp : String}
    {oppSt : PlayerState} {rc : Nat × Nat}
    (hp : pid ≠ "") (hm : pid ∈ room.players) (ht : s.turn = pid)
    (hf : room.players.find? (fun q => q != pid) = some opp)
    (hps : s.playerState opp = some oppSt) (hpl : oppSt.shipsPlaced = true)
    (hc : coordToTuple (toUpperCase coord) = some rc) :
    fire room (some s) pid coord =
      if toUpperCase coord ∈ oppSt.shipCells then
        (some { s with
                  players := room.players
                  turn := opp
                  playerState := setPS s.playerState opp
                    { oppSt with hitsTaken := addHit oppSt.hitsTaken (toUpperCase coord) } },
         .ok { result :=
                 if oppSt.shipCells.all
                     (fun c => (addHit oppSt.hitsTaken (toUpperCase coord)).contains c) then
                   .sink
                 else .hit
               gameOver := oppSt.shipCells.all
                 (fun c => (addHit oppSt.hitsTaken (toUpperCase coord)).contains c)
               nextTurn := opp })
      else
        (some { s with
                  players := room.players
                  turn := opp },
         .ok { result := .miss
               gameOver := oppSt.shipCells.all (fun c => oppSt.hitsTaken.contains c)
               nextTurn := opp }) := by
  simp only [fire, hp, hm, ht, hf, hps, hpl, hc]
  simp

/-- Inversion of a successful fire call: all preconditions held. -/
theorem fire_ok_inv {room : RoomInfo} {s? t? : Option RoomGameState} {pid coord : String}
    {resp : FireResp} (h : fire room s? pid coord = (t?, .ok resp)) :
    ∃ s opp oppSt rc, s? = some s ∧ pid ≠ "" ∧ pid ∈ room.players ∧ s.turn = pid ∧
      room.players.find? (fun q => q != pid) = some opp ∧
      s.playerState opp = some oppSt ∧ oppSt.shipsPlaced = true ∧
      coordToTuple (toUpperCase coord) = some rc := by
  simp only [fire] at h
  split at h
  · exact absurd h (by simp)
  · split at h
    · split at h
      · exact absurd h (by simp)
      · split at h
        · exact absurd h (by simp)
        · split at h
          · exact absurd h (by simp)
          · split at h
            · exact absurd h (by simp)
            · split at h
              · split at h
                · exact absurd h (by simp)
                · rename_i hp hm sq s hturn x2 opp hf x1 oppSt hps hpl x0 rc hc
                  exact ⟨s, opp, oppSt, rc, rfl, hp, hm, by simpa using hturn, hf, hps,
                    hpl, hc⟩
              · exact absurd h (by simp)
    · exact absurd h (by simp)

/-- Full description of the output of a successful fire call. -/
theorem fire_ok_shape {room : RoomInfo} {s? t? : Option RoomGameState} {pid coord : String}
    {resp : FireResp} (h : fire room s? pid coord = (t?, .ok resp)) :
    ∃ s opp oppSt, s? = some s ∧
      room.players.find? (fun q => q != pid) = some opp ∧
      s.playerState opp = some oppSt ∧ oppSt.shipsPlaced = true ∧
      resp.nextTurn = opp ∧ opp ≠ pid ∧
      ∃ t, t? = some t ∧ t.turn = opp ∧ t.players = room.players ∧
        (∀ q, q ≠ opp → t.playerState q = s.playerState q) ∧
        ∃ oppSt', t.playerState opp = some oppSt' ∧
          oppSt'.shipsPlaced = oppSt.shipsPlaced ∧ oppSt'.shipCells = oppSt.shipCells ∧
          (if toUpperCase coord ∈ oppSt.shipCells then
            oppSt'.hitsTaken = addHit oppSt.hitsTaken (toUpperCase coord) ∧
              resp.result =
                (if oppSt.shipCells.all
                     (fun c => (addHit oppSt.hitsTaken (toUpperCase coord)).contains c) then
                   .sink
                 else .hit)
          else oppSt' = oppSt ∧ resp.result = .miss) ∧
          resp.gameOver = oppSt'.shipCells.all (fun c => oppSt'.hitsTaken.contains c) := by
  obtain ⟨s, opp, oppSt, rc, hs, hp, hm, ht, hf, hps, hpl, hc⟩ := fire_ok_inv h
  subst hs
  rw [fire_eq_of hp hm ht hf hps hpl hc] at h
  refine ⟨s, opp, oppSt, rfl, hf, hps, hpl, ?_⟩
  by_cases hmem : toUpperCase coord ∈ oppSt.shipCells
  · rw [if_pos hmem] at h
    rw [Prod.mk.injEq] at h
    obtain ⟨h1, h2⟩ := h
    injection h2 with h2
    subst h2
    refine ⟨rfl, find?_opp_ne hf, ?_⟩
    refine ⟨_, h1.symm, rfl, rfl, ?_, ?_⟩
    · intro q hq
      simp [setPS, hq]
    · refine ⟨{ oppSt with hitsTaken := addHit oppSt.hitsTaken (toUpperCase coord) },
        by simp [setPS], rfl, rfl, ?_, rfl⟩
      rw [if_pos hmem]
      exact ⟨rfl, rfl⟩
  · rw [if_neg hmem] at h
    rw [Prod.mk.injEq] at h
    obtain ⟨h1, h2⟩ := h
    injection h2 with h2
    subst h2
    refine ⟨rfl, find?_opp_ne hf, ?_⟩
    refine ⟨_, h1.symm, rfl, rfl, fun q _ => rfl, ?_⟩
    refine ⟨oppSt, hps, rfl, rfl, ?_, rfl⟩
    rw [if_neg hmem]
    exact ⟨rfl, rfl⟩

/-- Claim C2: while the game is not over, the turn alternates strictly: after a
fire by P accepted by the engine, the turn moves to the opponent of P
(regardless of hit or miss, so a hit grants no extra turn), any further
fire by P is rejected NotYourTurn, and the engine never re-reads the Room
Registry turn field: fire is invariant under it. -/
theorem fire_turn_alternates {room : RoomInfo} {s t : RoomGameState} {pid coord : String}
    {resp : FireResp} (h : fire room (some s) pid coord = (some t, .ok resp)) :
    resp.nextTurn ≠ pid ∧ t.turn = resp.nextTurn ∧
      room.players.find? (fun q => q != pid) = some resp.nextTurn ∧
      (∀ room2 coord2, pid ∈ room2.players →
        (fire room2 (some t) pid coord2).2 = .error .notYourTurn) ∧
      (∀ tn, fire { room with turn := tn } (some s) pid coord = fire room (some s) pid coord) := by
  obtain ⟨s0, opp, oppSt, hs0, hf, hps, hpl, hnext, hne, t0, ht0, htturn, _, _, _⟩ :=
    fire_ok_shape h
  obtain rfl : s = s0 := Option.some.inj hs0
  obtain rfl : t = t0 := Option.some.inj ht0
  obtain ⟨_, _, _, _, _, hp, _, _, _, _, _, _⟩ := fire_ok_inv h
  subst hnext
  refine ⟨hne, htturn, hf, ?_, ?_⟩
  · intro room2 coord2 hm2
    have htne : t.turn ≠ pid := by rw [htturn]; exact hne
    simp [fire, hp, hm2, htne]
  · intro tn
    rfl

/-- Closed instance of the turn-alternation theorem on the concrete
two-player session. -/
theorem fire_turn_alternates_witness :
    ("P2" : String) ≠ "P1" ∧ exStAfter.turn = "P2" ∧
      exRoom.players.find? (fun q => q != "P1") = some "P2" ∧
      (∀ room2 coord2, "P1" ∈ room2.players →
        (fire room2 (some exStAfter) "P1" coord2).2 = .error .notYourTurn) ∧
      (∀ tn, fire { exRoom with turn := tn } (some exSt) "P1" "B2" =
        fire exRoom (some exSt) "P1" "B2") := by
  have h : fire exRoom (some exSt) "P1" "B2" =
      (some exStAfter, .ok { result := .sink, gameOver := true, nextTurn := "P2" }) := rfl
  exact fire_turn_alternates h

/-- Claim C9: of two fire calls by the same player racing on one session, the one
that serializes second observes the advanced turn: it fails NotYourTurn and
leaves the per-player game state untouched, so the two shots are never both
applied. -/
theorem fire_race_loser_rejected {room room2 : RoomInfo} {s t : RoomGameState}
    {pid coord : String} {resp : FireResp}
    (h : fire room (some s) pid coord = (some t, .ok resp))
    (hm2 : pid ∈ room2.players) (coord2 : String) :
    (fire room2 (some t) pid coord2).2 = .error .notYourTurn ∧
      (fire room2 (some t) pid coord2).1 = some { t with players := room2.players } := by
  obtain ⟨s0, opp, oppSt, hs0, hf, hps, hpl, hnext, hne, t0, ht0, htturn, _, _, _⟩ :=
    fire_ok_shape h
  obtain rfl : t = t0 := Option.some.inj ht0
  obtain ⟨_, _, _, _, _, hp, _, _, _, _, _, _⟩ := fire_ok_inv h
  have htne : t.turn ≠ pid := by rw [htturn]; exact hne
  constructor <;> simp [fire, hp, hm2, htne]

/-- Closed instance of the race-loser theorem on the concrete two-player
session. -/
theorem fire_race_loser_rejected_witness :
    (fire exRoom (some exStAfter) "P1" "C1").2 = .error .notYourTurn ∧
      (fire exRoom (some exStAfter) "P1" "C1").1 =
        some { exStAfter with players := exRoom.players } := by
  have h : fire exRoom (some exSt) "P1" "B2" =
      (some exStAfter, .ok { result := .sink, gameOver := true, nextTurn := "P2" }) := rfl
  exact fire_race_loser_rejected h (by decide) "C1"

/-- Claim C1 counterexample: after a fire that returns gameOver = true the session
is not terminal.  In the concrete session P1 sinks the P2 ship (gameOver =
true), yet the next fire, by P2 at A1, is accepted with a success response
and mutates the P1 hitsTaken set from empty to containing A1: nothing fails
with a SessionFinished error and the hit state of the winner is modified
after game over. -/
theorem no_session_finished_cex :
    (fire exRoom (some exSt) "P1" "B2").2 =
        .ok { result := .sink, gameOver := true, nextTurn := "P2" } ∧
      lookupPS (fire exRoom (some exSt) "P1" "B2").1 "P1" = some exPsA ∧
      exPsA.hitsTaken = [] ∧
      (fire exRoom (fire exRoom (some exSt) "P1" "B2").1 "P2" "A1").2 =
        .ok { result := .sink, gameOver := true, nextTurn := "P1" } ∧
      lookupPS (fire exRoom (fire exRoom (some exSt) "P1" "B2").1 "P2" "A1").1 "P1" =
        some { shipsPlaced := true, shipCells := ["A1"], hitsTaken := ["A1"] } :=
  ⟨rfl, rfl, rfl, rfl, rfl⟩

/-- Claim C1 amended: a fire that returns gameOver = true does not freeze the
session: the turn advances to the opponent exactly as for a non-terminal
fire, and a subsequent well-formed fire by the new turn holder is accepted
by the engine rather than rejected. -/
theorem post_gameover_session_live {room : RoomInfo} {s t : RoomGameState}
    {pid coord : String} {resp : FireResp} {myPs : PlayerState}
    (h : fire room (some s) pid coord = (some t, .ok resp))
    (hf2 : room.players.find? (fun q => q != resp.nextTurn) = some pid)
    (hps2 : s.playerState pid = some myPs) (hpl2 : myPs.shipsPlaced = true)
    (hne2 : resp.nextTurn ≠ "") :
    t.turn = resp.nextTurn ∧
      ∀ coord2 rc2, coordToTuple (toUpperCase coord2) = some rc2 →
        ∃ t2 resp2, fire room (some t) resp.nextTurn coord2 = (some t2, .ok resp2) := by
  obtain ⟨s0, opp, oppSt, hs0, hf, hps, hpl, hnext, hne, t0, ht0, htturn, _, hframe, _⟩ :=
    fire_ok_shape h
  obtain rfl : s = s0 := Option.some.inj hs0
  obtain rfl : t = t0 := Option.some.inj ht0
  subst hnext
  refine ⟨htturn, ?_⟩
  intro coord2 rc2 hc2
  have hpid_ne : pid ≠ resp.nextTurn := find?_opp_ne hf2
  have hmem2 : resp.nextTurn ∈ room.players := find?_opp_mem hf
  have hps2t : t.playerState pid = some myPs := by
    rw [hframe pid hpid_ne]; exact hps2
  rw [fire_eq_of hne2 hmem2 htturn hf2 hps2t hpl2 hc2]
  by_cases hmm : toUpperCase coord2 ∈ myPs.shipCells
  · rw [if_pos hmm]; exact ⟨_, _, rfl⟩
  · rw [if_neg hmm]; exact ⟨_, _, rfl⟩

/-- Closed instance of the amended C1 theorem: the game-over fire on the
concrete session advances the turn to P2 and the next fire by P2 at A1 is
accepted. -/
theorem post_gameover_session_live_witness :
    exStAfter.turn = "P2" ∧
      ∃ t2 resp2, fire exRoom (some exStAfter) "P2" "A1" = (some t2, .ok resp2) := by
  have h : fire exRoom (some exSt) "P1" "B2" =
      (some exStAfter, .ok { result := .sink, gameOver := true, nextTurn := "P2" }) := rfl
  have hmain := post_gameover_session_live h (by decide) (show exSt.playerState "P1" =
    some exPsA from rfl) (by decide) (by decide)
  exact ⟨hmain.1, hmain.2 "A1" (0, 0) (by decide)⟩

/-- Membership in the JS Set.add model. -/
theorem mem_addHit {hits : List String} {C c : String} :
    c ∈ addHit hits C ↔ c ∈ hits ∨ c = C := by
  unfold addHit
  split
  · rename_i hC
    constructor
    · exact Or.inl
    · rintro (hc | rfl)
      · exact hc
      · exact hC
  · simp

/-- The every-cell-hit Bool of the handler as a proposition. -/
theorem all_contains_iff {cells hits : List String} :
    (cells.all fun c => hits.contains c) = true ↔ ∀ c ∈ cells, c ∈ hits := by
  simp [List.all_eq_true]

/-- Claim C3: characterization of an accepted shot.  Given the invariant that the
recorded hits of the opponent lie inside the opponent ship cells, the call
records a hit exactly when the canonicalized coordinate is an opponent ship
cell, reports sink exactly when after recording every opponent ship cell is
hit, reports miss exactly otherwise, reports gameOver exactly when the
recorded hit set equals the ship cell set, and an already-hit cell fires
again without being rejected, re-confirming hit or sink. -/
theorem fire_shot_resolution {room : RoomInfo} {s t : RoomGameState} {pid coord opp : String}
    {oppSt : PlayerState} {resp : FireResp}
    (h : fire room (some s) pid coord = (some t, .ok resp))
    (hf : room.players.find? (fun q => q != pid) = some opp)
    (hps : s.playerState opp = some oppSt)
    (hinv : ∀ c ∈ oppSt.hitsTaken, c ∈ oppSt.shipCells) :
    ∃ oppSt', t.playerState opp = some oppSt' ∧
      oppSt'.shipCells = oppSt.shipCells ∧
      (toUpperCase coord ∈ oppSt.shipCells →
        toUpperCase coord ∈ oppSt'.hitsTaken ∧
        (resp.result = .sink ↔ ∀ c ∈ oppSt'.shipCells, c ∈ oppSt'.hitsTaken) ∧
        (resp.result = .hit ↔ ¬ ∀ c ∈ oppSt'.shipCells, c ∈ oppSt'.hitsTaken)) ∧
      (resp.result = .miss ↔ toUpperCase coord ∉ oppSt.shipCells) ∧
      (toUpperCase coord ∉ oppSt.shipCells → oppSt' = oppSt) ∧
      (resp.gameOver = true ↔ ∀ c, c ∈ oppSt'.hitsTaken ↔ c ∈ oppSt'.shipCells) ∧
      (toUpperCase coord ∈ oppSt.hitsTaken → resp.result ≠ .miss) := by
  obtain ⟨s0, opp0, oppSt0, hs0, hf0, hps0, hpl0, hnext, hne, t0, ht0, _, _, _,
    oppSt', hlook, hpl', hcells', hres, hgo⟩ := fire_ok_shape h
  obtain rfl : s = s0 := Option.some.inj hs0
  obtain rfl : t = t0 := Option.some.inj ht0
  obtain rfl : opp = opp0 := Option.some.inj (hf ▸ hf0)
  obtain rfl : oppSt = oppSt0 := Option.some.inj (hps ▸ hps0)
  have hsub : ∀ c ∈ oppSt'.hitsTaken, c ∈ oppSt'.shipCells := by
    intro c hc
    rw [hcells']
    by_cases hmem : toUpperCase coord ∈ oppSt.shipCells
    · rw [if_pos hmem] at hres
      rw [hres.1, mem_addHit] at hc
      rcases hc with hc | rfl
      · exact hinv c hc
      · exact hmem
    · rw [if_neg hmem] at hres
      rw [hres.1] at hc
      exact hinv c hc
  refine ⟨oppSt', hlook, hcells', ?_, ?_, ?_, ?_, ?_⟩
  · intro hmem
    rw [if_pos hmem] at hres
    refine ⟨by rw [hres.1, mem_addHit]; exact Or.inr rfl, ?_, ?_⟩
    · rw [hres.2]
      by_cases hall : (oppSt.shipCells.all fun c =>
          (addHit oppSt.hitsTaken (toUpperCase coord)).contains c) = true
      · rw [if_pos hall]
        simp only [true_iff]
        rw [all_contains_iff] at hall
        intro c hc
        rw [hres.1]
        exact hall c (hcells' ▸ hc)
      · rw [if_neg hall]
        simp only [reduceCtorEq, false_iff, not_not]
        intro hcon
        apply hall
        rw [all_contains_iff]
        intro c hc
        have := hcon c (by rw [hcells']; exact hc)
        rwa [hres.1] at this
    · rw [hres.2]
      by_cases hall : (oppSt.shipCells.all fun c =>
          (addHit oppSt.hitsTaken (toUpperCase coord)).contains c) = true
      · rw [if_pos hall]
        simp only [reduceCtorEq, false_iff, not_not]
        rw [all_contains_iff] at hall
        intro c hc
        rw [hres.1]
        exact hall c (hcells' ▸ hc)
      · rw [if_neg hall]
        simp only [true_iff]
        intro hcon
        apply hall
        rw [all_contains_iff]
        intro c hc
        have := hcon c (by rw [hcells']; exact hc)
        rwa [hres.1] at this
  · by_cases hmem : toUpperCase coord ∈ oppSt.shipCells
    · rw [if_pos hmem] at hres
      rw [hres.2]
      constructor
      · intro hcon
        by_cases hall : (oppSt.shipCells.all fun c =>
            (addHit oppSt.hitsTaken (toUpperCase coord)).contains c) = true
        · rw [if_pos hall] at hcon; exact absurd hcon (by simp)
        · rw [if_neg hall] at hcon; exact absurd hcon (by simp)
      · intro hcon; exact absurd hmem hcon
    · rw [if_neg hmem] at hres
      rw [hres.2]
      simp [hmem]
  · intro hmem
    rw [if_neg hmem] at hres
    exact hres.1
  · rw [hgo]
    rw [all_contains_iff]
    constructor
    · intro hall c
      exact ⟨fun hc => hsub c hc, fun hc => hall c hc⟩
    · intro hiff c hc
      exact (hiff c).2 hc
  · intro hhit hcon
    have hmem : toUpperCase coord ∈ oppSt.shipCells := hinv _ hhit
    rw [if_pos hmem] at hres
    rw [hres.2] at hcon
    by_cases hall : (oppSt.shipCells.all fun c =>
        (addHit oppSt.hitsTaken (toUpperCase coord)).contains c) = true
    · rw [if_pos hall] at hcon; exact absurd hcon (by simp)
    · rw [if_neg hall] at hcon; exact absurd hcon (by simp)

/-- Closed instance of the shot characterization on the concrete session:
the P1 shot at B2. -/
theorem fire_shot_resolution_witness :
    ∃ oppSt', exStAfter.playerState "P2" = some oppSt' ∧
      oppSt'.shipCells = exPsB.shipCells ∧
      (toUpperCase "B2" ∈ exPsB.shipCells →
        toUpperCase "B2" ∈ oppSt'.hitsTaken ∧
        ((FireResp.mk .sink true "P2").result = .sink ↔
          ∀ c ∈ oppSt'.shipCells, c ∈ oppSt'.hitsTaken) ∧
        ((FireResp.mk .sink true "P2").result = .hit ↔
          ¬ ∀ c ∈ oppSt'.shipCells, c ∈ oppSt'.hitsTaken)) ∧
      ((FireResp.mk .sink true "P2").result = .miss ↔
        toUpperCase "B2" ∉ exPsB.shipCells) ∧
      (toUpperCase "B2" ∉ exPsB.shipCells → oppSt' = exPsB) ∧
      ((FireResp.mk .sink true "P2").gameOver = true ↔
        ∀ c, c ∈ oppSt'.hitsTaken ↔ c ∈ oppSt'.shipCells) ∧
      (toUpperCase "B2" ∈ exPsB.hitsTaken → (FireResp.mk .sink true "P2").result ≠ .miss) := by
  have h : fire exRoom (some exSt) "P1" "B2" =
      (some exStAfter, .ok { result := .sink, gameOver := true, nextTurn := "P2" }) := rfl
  exact fire_shot_resolution h (by decide) (show exSt.playerState "P2" = some exPsB from rfl)
    (by decide)

/-- A session unchanged by the call satisfies the frame as soon as the
players-refresh obligation does. -/
theorem fireFrame_id {room : RoomInfo} {s : RoomGameState} {pid : String}
    (h6 : pid ≠ "" → pid ∈ room.players → s.players = room.players) :
    FireFrame room s s pid :=
  ⟨fun _ => rfl, fun _ => rfl, rfl, fun _ _ => rfl, Or.inl rfl, h6, Or.inl rfl⟩

/-- A session changed only by the players sync satisfies the frame. -/
theorem fireFrame_sync {room : RoomInfo} {s : RoomGameState} {pid : String} :
    FireFrame room s { s with players := room.players } pid :=
  ⟨fun _ => rfl, fun _ => rfl, rfl, fun _ _ => rfl, Or.inr rfl, fun _ _ => rfl, Or.inl rfl⟩

/-- Helper: full case analysis of the frame of one fire call. -/
theorem fire_frame_core (room : RoomInfo) (s : RoomGameState) (pid coord : String) :
    ∃ t, (fire room (some s) pid coord).1 = some t ∧ FireFrame room s t pid := by
  by_cases hp : pid = ""
  · exact ⟨s, by simp [fire, hp], fireFrame_id (fun h6 => absurd hp h6)⟩
  by_cases hm : pid ∈ room.players
  case neg =>
    exact ⟨s, by simp [fire, hp, hm], fireFrame_id (fun _ hm2 => absurd hm2 hm)⟩
  by_cases ht : s.turn = pid
  case neg =>
    refine ⟨{ s with players := room.players }, ?_, fireFrame_sync⟩
    simp [fire, hp, hm, ht]
  cases hf : room.players.find? (fun q => q != pid) with
  | none =>
    refine ⟨{ s with players := room.players }, ?_, fireFrame_sync⟩
    simp [fire, hp, hm, ht, hf]
  | some opp =>
    cases hps : s.playerState opp with
    | none =>
      refine ⟨{ s with players := room.players }, ?_, fireFrame_sync⟩
      simp [fire, hp, hm, ht, hf, hps]
    | some oppSt =>
      by_cases hpl : oppSt.shipsPlaced = true
      case neg =>
        refine ⟨{ s with players := room.players }, ?_, fireFrame_sync⟩
        simp [fire, hp, hm, ht, hf, hps, hpl]
      cases hc : coordToTuple (toUpperCase coord) with
      | none =>
        refine ⟨{ s with players := room.players }, ?_, fireFrame_sync⟩
        simp [fire, hp, hm, ht, hf, hps, hpl, hc]
      | some rc =>
        rw [fire_eq_of hp hm ht hf hps hpl hc]
        have hopp_ne : opp ≠ pid := find?_opp_ne hf
        by_cases hmem : toUpperCase coord ∈ oppSt.shipCells
        · rw [if_pos hmem]
          refine ⟨_, rfl, ?_, ?_, ?_, ?_, Or.inr rfl, fun _ _ => rfl, Or.inr (by rw [hf])⟩
          · intro q
            by_cases hq : q = opp
            · subst hq; simp [setPS, hps]
            · simp [setPS, hq]
          · intro q
            by_cases hq : q = opp
            · subst hq; simp [setPS, hps]
            · simp [setPS, hq]
          · simp [setPS, hopp_ne.symm]
          · intro q hq
            have hqne : q ≠ opp := fun hcon => hq (hcon ▸ hf)
            simp [setPS, hqne]
        · rw [if_neg hmem]
          exact ⟨_, rfl, fun _ => rfl, fun _ => rfl, rfl, fun _ _ => rfl, Or.inr rfl,
            fun _ _ => rfl, Or.inr (by rw [hf])⟩

/-- Claim C10: a fire call never removes the session, never touches any
player shipsPlaced flag or shipCells set, never touches the hitsTaken set
of the shooter or of any player other than the computed opponent, only ever
writes the cached players list (with the fetched value, and it does write
it on every call that passes the body and membership checks, including
calls that later fail NotYourTurn or OpponentNotReady), and only ever
writes the turn to the computed opponent. -/
theorem fire_frame_effect (room : RoomInfo) (s : RoomGameState) (pid coord : String) :
    ∃ t, (fire room (some s) pid coord).1 = some t ∧ FireFrame room s t pid :=
  fire_frame_core room s pid coord

/-- Closed instance of the frame theorem at the concrete session and a call
that fails NotYourTurn: the players list is still refreshed and nothing
else changes. -/
theorem fire_frame_effect_witness :
    ∃ t, (fire exRoom (some exSt) "P2" "C1").1 = some t ∧ FireFrame exRoom exSt t "P2" :=
  fire_frame_effect exRoom exSt "P2" "C1"

/-- The seeded and synced session keeps the invariant. -/
theorem goodState_seed {room : RoomInfo} {s? : Option RoomGameState} (h : GoodOpt s?) :
    GoodState (seedSession room s?) := by
  cases s? with
  | none =>
    intro pid ps hps
    simp [seedSession] at hps
  | some s => exact fun pid ps hps => h pid ps hps

/-- The checked tail of the place handler preserves the invariant. -/
theorem placeChecked_good {room : RoomInfo} {s1 : RoomGameState} {pid : String}
    {ships : List Ship} (h : GoodState s1) : GoodOpt (placeChecked room s1 pid ships).1 := by
  unfold placeChecked
  by_cases hpl : ((s1.playerState pid).getD freshPS).shipsPlaced = true
  · rw [if_pos hpl]
    exact h
  rw [if_neg hpl]
  cases hcc : collectCells ships with
  | none => exact h
  | some cells =>
    simp only
    split
    · exact h
    · intro q ps' hq
      simp only [setPS] at hq
      split at hq
      · rename_i hqpid
        cases hlook : s1.playerState pid with
        | some p0 =>
          rw [hlook] at hpl
          exact absurd (h pid p0 hlook).1 hpl
        | none =>
          rw [hlook] at hq
          injection hq with hq
          subst hq
          exact ⟨rfl, by simp [freshPS]⟩
      · exact h q ps' hq

/-- The place handler preserves the invariant. -/
theorem place_good {room : RoomInfo} {s? : Option RoomGameState} {pid : String}
    {ships : List Ship} (h : GoodOpt s?) : GoodOpt (place room s? pid ships).1 := by
  unfold place
  split
  · exact h
  split
  · exact placeChecked_good (goodState_seed h)
  · exact h

/-- The fire handler preserves the invariant. -/
theorem fire_good {room : RoomInfo} {s? : Option RoomGameState} {pid coord : String}
    (h : GoodOpt s?) : GoodOpt (fire room s? pid coord).1 := by
  cases s? with
  | none =>
    by_cases hp : pid = ""
    · simpa [fire, hp] using h
    by_cases hm : pid ∈ room.players
    · simp only [fire, if_neg hp, if_pos hm]
      exact h
    · simpa [fire, hp, hm] using h
  | some s =>
    by_cases hp : pid = ""
    · simpa [fire, hp] using h
    by_cases hm : pid ∈ room.players
    case neg => simpa [fire, hp, hm] using h
    by_cases ht : s.turn = pid
    case neg =>
      simp only [fire, if_neg hp, if_pos hm]
      rw [if_pos (by simpa using ht)]
      exact fun q ps hq => h q ps hq
    cases hf : room.players.find? (fun q => q != pid) with
    | none =>
      simp only [fire, if_neg hp, if_pos hm]
      rw [if_neg (by simpa using ht), hf]
      exact fun q ps hq => h q ps hq
    | some opp =>
      cases hps : s.playerState opp with
      | none =>
        simp only [fire, if_neg hp, if_pos hm]
        rw [if_neg (by simpa using ht), hf]
        simp only [hps]
        exact fun q ps hq => h q ps hq
      | some oppSt =>
        by_cases hpl : oppSt.shipsPlaced = true
        case neg =>
          simp only [fire, if_neg hp, if_pos hm]
          rw [if_neg (by simpa using ht), hf]
          simp only [hps]
          rw [if_neg hpl]
          exact fun q ps hq => h q ps hq
        cases hc : coordToTuple (toUpperCase coord) with
        | none =>
          simp only [fire, if_neg hp, if_pos hm]
          rw [if_neg (by simpa using ht), hf]
          simp only [hps]
          rw [if_pos hpl, hc]
          exact fun q ps hq => h q ps hq
        | some rc =>
          rw [fire_eq_of hp hm ht hf hps hpl hc]
          by_cases hmem : toUpperCase coord ∈ oppSt.shipCells
          · rw [if_pos hmem]
            intro q ps' hq
            simp only [setPS] at hq
            split at hq
            · rename_i hqopp
              injection hq with hq
              subst hq
              refine ⟨(h opp oppSt hps).1, ?_⟩
              intro c hc2
              rw [mem_addHit] at hc2
              rcases hc2 with hc2 | rfl
              · exact (h opp oppSt hps).2 c hc2
              · exact hmem
            · exact h q ps' hq
          · rw [if_neg hmem]
            exact fun q ps' hq => h q ps' hq

/-- Every run of engine commands preserves the invariant. -/
theorem goodOpt_runOps {s? : Option RoomGameState} (h : GoodOpt s?) (ops : List Op) :
    GoodOpt (runOps s? ops) := by
  induction ops generalizing s? with
  | nil => exact h
  | cons op ops ih =>
    show GoodOpt (List.foldl applyOp (applyOp s? op) ops)
    cases op with
    | placeOp room pid ships => exact ih (place_good h)
    | fireOp room pid coord => exact ih (fire_good h)

/-- Claim C7: in every session reachable by any sequence of place and fire calls
from the initial no-session state, the recorded hits of every player lie
inside that player ship cells. -/
theorem hits_subset_ships (ops : List Op) (pid : String) (ps : PlayerState)
    (h : lookupPS (runOps none ops) pid = some ps) :
    ∀ c ∈ ps.hitsTaken, c ∈ ps.shipCells := by
  have hg := goodOpt_runOps (show GoodOpt none from trivial) ops
  cases hr : runOps none ops with
  | none => rw [hr] at h; simp [lookupPS] at h
  | some s =>
    rw [hr] at hg h
    exact (hg pid ps h).2

/-- Closed instance of the reachable-state invariant, on the run in which
both players place and P1 sinks the P2 ship. -/
theorem hits_subset_ships_witness :
    "B2" ∈ (PlayerState.mk true ["B2"] ["B2"]).shipCells :=
  hits_subset_ships
    [Op.placeOp exRoom "P1" [{ fromC := "A1", toC := "A1" }],
     Op.placeOp exRoom "P2" [{ fromC := "B2", toC := "B2" }],
     Op.fireOp exRoom "P1" "B2"] "P2" (PlayerState.mk true ["B2"] ["B2"]) (by decide)
    "B2" (by decide)

/-- A fire call by anyone keeps a placed flag that is already true. -/
theorem fire_keeps_placed {room : RoomInfo} {s? : Option RoomGameState}
    {pid2 coord pid : String} {ps : PlayerState}
    (h : lookupPS s? pid = some ps) (hpl : ps.shipsPlaced = true) :
    ∃ ps', lookupPS (fire room s? pid2 coord).1 pid = some ps' ∧ ps'.shipsPlaced = true := by
  cases s? with
  | none => simp [lookupPS] at h
  | some s =>
    simp only [lookupPS, Option.some_bind] at h
    obtain ⟨t, h1, hframe⟩ := fire_frame_core room s pid2 coord
    have hmap := hframe.1 pid
    rw [h] at hmap
    obtain ⟨ps', hps', hval⟩ := Option.map_eq_some'.mp hmap
    refine ⟨ps', ?_, hval ▸ hpl⟩
    rw [lookupPS, h1, Option.some_bind]
    exact hps'

/-- A place call by anyone keeps a placed flag that is already true. -/
theorem place_keeps_placed {room : RoomInfo} {s? : Option RoomGameState} {pid2 pid : String}
    {ships : List Ship} {ps : PlayerState}
    (h : lookupPS s? pid = some ps) (hpl : ps.shipsPlaced = true) :
    ∃ ps', lookupPS (place room s? pid2 ships).1 pid = some ps' ∧ ps'.shipsPlaced = true := by
  cases s? with
  | none => simp [lookupPS] at h
  | some s =>
    simp only [lookupPS, Option.some_bind] at h
    have hs1 : (seedSession room (some s)).playerState pid = some ps := h
    unfold place
    split
    · exact ⟨ps, by simpa [lookupPS] using h, hpl⟩
    split
    · by_cases hpl0 :
        (((seedSession room (some s)).playerState pid2).getD freshPS).shipsPlaced = true
      · simp only [placeChecked]
        rw [if_pos hpl0]
        exact ⟨ps, by simpa [lookupPS] using hs1, hpl⟩
      · simp only [placeChecked]
        rw [if_neg hpl0]
        cases hcc : collectCells ships with
        | none => exact ⟨ps, by simpa [lookupPS] using hs1, hpl⟩
        | some cells =>
          simp only
          split
          · exact ⟨ps, by simpa [lookupPS] using hs1, hpl⟩
          · have hq : pid ≠ pid2 := by
              intro hcon
              subst hcon
              rw [hs1] at hpl0
              exact hpl0 hpl
            refine ⟨ps, ?_, hpl⟩
            simp only [lookupPS, Option.some_bind, setPS]
            rw [if_neg hq]
            exact hs1
    · exact ⟨ps, by simpa [lookupPS] using h, hpl⟩

/-- Any run of engine commands keeps a placed flag that is already true. -/
theorem runOps_keeps_placed {s? : Option RoomGameState} {pid : String} {ps : PlayerState}
    (ops : List Op) (h : lookupPS s? pid = some ps) (hpl : ps.shipsPlaced = true) :
    ∃ ps', lookupPS (runOps s? ops) pid = some ps' ∧ ps'.shipsPlaced = true := by
  induction ops generalizing s? ps with
  | nil => exact ⟨ps, h, hpl⟩
  | cons op ops ih =>
    show ∃ ps', lookupPS (List.foldl applyOp (applyOp s? op) ops) pid = some ps' ∧ _
    cases op with
    | placeOp room pid2 ships =>
      obtain ⟨ps1, h1, hpl1⟩ := place_keeps_placed h hpl
      exact ih h1 hpl1
    | fireOp room pid2 coord =>
      obtain ⟨ps1, h1, hpl1⟩ := fire_keeps_placed h hpl
      exact ih h1 hpl1

/-- Claim C5: placement is write-once.  A successful place sets the placed flag;
no later place or fire by anyone ever clears it; and a second place call by
an already-placed room member fails AlreadyPlaced while leaving the player
map, and with it that player shipCells, untouched (only the players list is
synced). -/
theorem placement_write_once :
    (∀ (room : RoomInfo) (s? t? : Option RoomGameState) (pid : String) (ships : List Ship),
      place room s? pid ships = (t?, .ok ()) →
      ∃ ps', lookupPS t? pid = some ps' ∧ ps'.shipsPlaced = true) ∧
    (∀ (ops : List Op) (s? : Option RoomGameState) (pid : String) (ps : PlayerState),
      lookupPS s? pid = some ps → ps.shipsPlaced = true →
      ∃ ps', lookupPS (runOps s? ops) pid = some ps' ∧ ps'.shipsPlaced = true) ∧
    (∀ (room : RoomInfo) (s : RoomGameState) (pid : String) (ships : List Ship)
      (ps : PlayerState), pid ≠ "" → ships.length = 1 → pid ∈ room.players →
      s.playerState pid = some ps → ps.shipsPlaced = true →
      place room (some s) pid ships =
        (some { s with players := room.players }, .error .alreadyPlaced)) := by
  refine ⟨?_, fun ops s? pid ps h hpl => runOps_keeps_placed ops h hpl, ?_⟩
  · intro room s? t? pid ships h
    simp only [place] at h
    split at h
    · exact absurd h (by simp)
    split at h
    · simp only [placeChecked] at h
      split at h
      · exact absurd h (by simp)
      split at h
      · exact absurd h (by simp)
      · split at h
        · exact absurd h (by simp)
        · rw [Prod.mk.injEq] at h
          rename_i cells hcc hocc
          refine ⟨{ shipsPlaced := true
                    shipCells := cells
                    hitsTaken :=
                      (((seedSession room s?).playerState pid).getD freshPS).hitsTaken },
            ?_, rfl⟩
          rw [← h.1]
          simp [lookupPS, setPS]
    · exact absurd h (by simp)
  · intro room s pid ships ps hp hlen hm hps hpl
    rw [place, if_neg (by simp [hp, hlen]), if_pos hm]
    have hs1 : (seedSession room (some s)).playerState pid = some ps := hps
    simp only [placeChecked]
    rw [hs1]
    simp only [Option.getD_some]
    rw [if_pos hpl]
    rfl

/-- Closed instance of the write-once theorem: the concrete P1 entry stays
placed across a full run, and the repeat place by P1 fails AlreadyPlaced. -/
theorem placement_write_once_witness :
    (∃ ps', lookupPS
        (runOps (some exSt) [Op.fireOp exRoom "P1" "B2",
          Op.placeOp exRoom "P1" [{ fromC := "C1", toC := "C1" }]]) "P1" = some ps' ∧
        ps'.shipsPlaced = true) ∧
      place exRoom (some exSt) "P1" [{ fromC := "C1", toC := "C1" }] =
        (some { exSt with players := exRoom.players }, .error .alreadyPlaced) := by
  refine ⟨placement_write_once.2.1 _ (some exSt) "P1" exPsA rfl rfl, ?_⟩
  exact placement_write_once.2.2 exRoom exSt "P1" [{ fromC := "C1", toC := "C1" }] exPsA
    (by decide) rfl (by decide) rfl rfl

/-- Bounds of a parsed coordinate: rows and columns index at most 3. -/
theorem coordToTuple_le3 {x : String} {r c : Nat} (h : coordToTuple x = some (r, c)) :
    r ≤ 3 ∧ c ≤ 3 := by
  unfold coordToTuple at h
  split at h
  · rename_i a b
    split at h
    · rename_i hcond
      obtain ⟨ha, hb⟩ := hcond
      injection h with h
      injection h with h1 h2
      subst h1
      subst h2
      constructor
      · simp [rowChars] at ha
        rcases ha with rfl | rfl | rfl | rfl <;> decide
      · simp [colChars] at hb
        rcases hb with rfl | rfl | rfl | rfl <;> decide
    · exact absurd h (by simp)
  · exact absurd h (by simp)

/-- Distinct small columns give distinct column characters. -/
theorem charOfNat_col_inj : ∀ c1, c1 < 4 → ∀ c2, c2 < 4 →
    Char.ofNat (49 + c1) = Char.ofNat (49 + c2) → c1 = c2 := by decide

/-- Distinct small rows give distinct row characters. -/
theorem charOfNat_row_inj : ∀ r1, r1 < 4 → ∀ r2, r2 < 4 →
    Char.ofNat (65 + r1) = Char.ofNat (65 + r2) → r1 = r2 := by decide

/-- The cells of one enumerated ship are pairwise distinct. -/
theorem enum_nodup {sp : Ship} {cells : List String} (h : enumerateShipCells sp = some cells) :
    cells.Nodup := by
  unfold enumerateShipCells at h
  split at h
  · exact absurd h (by simp)
  · rename_i r1 c1 h1
    split at h
    · exact absurd h (by simp)
    · rename_i r2 c2 h2
      obtain ⟨hr1, hc1⟩ := coordToTuple_le3 h1
      obtain ⟨hr2, hc2⟩ := coordToTuple_le3 h2
      split at h
      · exact absurd h (by simp)
      · split at h
        · injection h with h
          subst h
          refine List.Nodup.map_on ?_ (List.nodup_range _)
          intro i hi j hj hfe
          rw [List.mem_range] at hi hj
          unfold cellName at hfe
          injection hfe with hfe
          injection hfe with hfe1 hfe
          injection hfe with hfe2 hfe
          have := charOfNat_col_inj (min c1 c2 + i) (by omega) (min c1 c2 + j) (by omega) hfe2
          omega
        · injection h with h
          subst h
          refine List.Nodup.map_on ?_ (List.nodup_range _)
          intro i hi j hj hfe
          rw [List.mem_range] at hi hj
          unfold cellName at hfe
          injection hfe with hfe
          injection hfe with hfe1 hfe
          have := charOfNat_row_inj (min r1 r2 + i) (by omega) (min r1 r2 + j) (by omega) hfe1
          omega

/-- Inserting pairwise-distinct cells disjoint from the accumulator never
trips the overlap check. -/
theorem insertCells_eq {cells : List String} : ∀ {acc : List String}, cells.Nodup →
    (∀ c ∈ cells, c ∉ acc) → insertCells acc cells = some (acc ++ cells) := by
  induction cells with
  | nil => intro acc _ _; simp [insertCells]
  | cons c cs ih =>
    intro acc hnd hdisj
    have hc : c ∉ acc := hdisj c (by simp)
    obtain ⟨hne, hnd'⟩ := List.nodup_cons.mp hnd
    rw [insertCells, if_neg hc]
    have hrec := @ih (acc ++ [c]) hnd' ?_
    · rw [hrec]
      simp
    · intro c2 hc2
      simp only [List.mem_append, List.mem_singleton]
      rintro (hin | rfl)
      · exact hdisj c2 (by simp [hc2]) hin
      · exact hne hc2

/-- With the single-ship body the handler accepts, the collected cell set is
exactly the enumerated span. -/
theorem collectCells_single (sp : Ship) : collectCells [sp] = enumerateShipCells sp := by
  unfold collectCells collectCellsAux
  cases he : enumerateShipCells sp with
  | none => simp
  | some cells =>
    simp only
    rw [insertCells_eq (enum_nodup he) (by simp)]
    simp [collectCellsAux]

/-- The enumeration fails exactly when the endpoints do not both parse to
grid cells sharing a row or a column. -/
theorem enum_none_iff (sp : Ship) :
    enumerateShipCells sp = none ↔
      ¬∃ r1 c1 r2 c2, coordToTuple sp.fromC = some (r1, c1) ∧
        coordToTuple sp.toC = some (r2, c2) ∧ (r1 = r2 ∨ c1 = c2) := by
  unfold enumerateShipCells
  cases h1 : coordToTuple sp.fromC with
  | none => simp [h1]
  | some p1 =>
    obtain ⟨r1, c1⟩ := p1
    cases h2 : coordToTuple sp.toC with
    | none => simp [h1, h2]
    | some p2 =>
      obtain ⟨r2, c2⟩ := p2
      simp only [h1, h2, Option.some.injEq, Prod.mk.injEq]
      obtain ⟨hax1, hax2⟩ | hax := Decidable.em (r1 ≠ r2 ∧ c1 ≠ c2)
      · rw [if_pos ⟨hax1, hax2⟩]
        simp only [true_iff]
        rintro ⟨a, b, c, d, ⟨h3, h4⟩, ⟨h5, h6⟩, h7⟩
        rcases h7 with h7 | h7 <;> omega
      · rw [if_neg hax]
        have hsome : (if r1 = r2 then
            some ((List.range (max c1 c2 + 1 - min c1 c2)).map
              (fun i => cellName r1 (min c1 c2 + i)))
          else
            some ((List.range (max r1 r2 + 1 - min r1 r2)).map
              (fun i => cellName (min r1 r2 + i) c1))) ≠ none := by
          split <;> simp
        simp only [hsome, false_iff, not_not]
        refine ⟨r1, c1, r2, c2, ⟨rfl, rfl⟩, ⟨rfl, rfl⟩, ?_⟩
        rcases eq_or_ne r1 r2 with hr | hr
        · exact Or.inl hr
        · rcases eq_or_ne c1 c2 with hcq | hcq
          · exact Or.inr hcq
          · exact absurd ⟨hr, hcq⟩ hax

/-- Claim C6: validation of a place call by a room member who has not placed yet:
the call fails InvalidPlacement exactly when the covered cells cannot be
computed, which happens exactly when the endpoints do not both parse in
bounds with a shared row or column (with one straight ship the expansion
can contain no duplicate); otherwise it fails CellOccupied exactly when
some covered cell is already in the opponent shipCells; otherwise it
commits with shipCells exactly the covered set. -/
theorem place_validation (room : RoomInfo) (s? : Option RoomGameState) (pid : String)
    (sp : Ship) (hp : pid ≠ "") (hm : pid ∈ room.players)
    (hnp : (((seedSession room s?).playerState pid).getD freshPS).shipsPlaced = false) :
    (collectCells [sp] = none ↔
      ¬∃ r1 c1 r2 c2, coordToTuple sp.fromC = some (r1, c1) ∧
        coordToTuple sp.toC = some (r2, c2) ∧ (r1 = r2 ∨ c1 = c2)) ∧
    ((place room s? pid [sp]).2 = .error .invalidPlacement ↔ collectCells [sp] = none) ∧
    (∀ cells, collectCells [sp] = some cells →
      (((place room s? pid [sp]).2 = .error .cellOccupied) ↔
        ∃ opp, room.players.find? (fun q => q != pid) = some opp ∧
          ∃ oppSt, (seedSession room s?).playerState opp = some oppSt ∧
            ∃ c ∈ cells, c ∈ oppSt.shipCells) ∧
      ((¬∃ opp, room.players.find? (fun q => q != pid) = some opp ∧
          ∃ oppSt, (seedSession room s?).playerState opp = some oppSt ∧
            ∃ c ∈ cells, c ∈ oppSt.shipCells) →
        (place room s? pid [sp]).2 = .ok () ∧
        ∃ ps', lookupPS (place room s? pid [sp]).1 pid = some ps' ∧
          ps'.shipCells = cells ∧ ps'.shipsPlaced = true)) := by
  have hplace : place room s? pid [sp] = placeChecked room (seedSession room s?) pid [sp] := by
    rw [place, if_neg (by simp [hp]), if_pos hm]
  refine ⟨by rw [collectCells_single]; exact enum_none_iff sp, ?_, ?_⟩
  · rw [hplace]
    simp only [placeChecked]
    rw [if_neg (by simp [hnp])]
    cases hcc : collectCells [sp] with
    | none => simp
    | some cells =>
      simp only
      constructor
      · intro hcon
        split at hcon <;> simp at hcon
      · intro hcon
        exact absurd hcon (by simp)
  · intro cells hcc
    rw [hplace]
    simp only [placeChecked]
    rw [if_neg (by simp [hnp]), hcc]
    simp only
    have hcond : (match room.players.find? (fun q => q != pid) with
        | some opp =>
          match (seedSession room s?).playerState opp with
          | some oppSt => cells.any fun c => oppSt.shipCells.contains c
          | none => false
        | none => false) = true ↔
        ∃ opp, room.players.find? (fun q => q != pid) = some opp ∧
          ∃ oppSt, (seedSession room s?).playerState opp = some oppSt ∧
            ∃ c ∈ cells, c ∈ oppSt.shipCells := by
      cases hf : room.players.find? (fun q => q != pid) with
      | none =>
        simp only [Bool.false_eq_true, false_iff]
        rintro ⟨opp, hopp, _⟩
        exact absurd hopp (by simp)
      | some opp =>
        cases hos : (seedSession room s?).playerState opp with
        | none =>
          simp only [hos, Bool.false_eq_true, false_iff]
          rintro ⟨opp2, hopp2, oppSt, hoppSt, _⟩
          injection hopp2 with hopp2
          subst hopp2
          exact absurd hoppSt (by simp [hos])
        | some oppSt =>
          simp only [hos]
          constructor
          · intro hany
            exact ⟨opp, rfl, oppSt, hos, by simpa using hany⟩
          · rintro ⟨opp2, hopp2, oppSt2, hoppSt2, hex⟩
            injection hopp2 with hopp2
            subst hopp2
            rw [hos] at hoppSt2
            injection hoppSt2 with hoppSt2
            subst hoppSt2
            simpa using hex
    by_cases hocc : (match room.players.find? (fun q => q != pid) with
        | some opp =>
          match (seedSession room s?).playerState opp with
          | some oppSt => cells.any fun c => oppSt.shipCells.contains c
          | none => false
        | none => false) = true
    · rw [if_pos hocc]
      constructor
      · constructor
        · intro _
          exact hcond.mp hocc
        · intro _
          rfl
      · intro hnocc
        exact absurd (hcond.mp hocc) hnocc
    · rw [if_neg hocc]
      refine ⟨?_, ?_⟩
      · simp only [reduceCtorEq, false_iff]
        intro hex
        exact hocc (hcond.mpr hex)
      · intro _
        refine ⟨rfl, ?_⟩
        refine ⟨{ shipsPlaced := true
                  shipCells := cells
                  hitsTaken :=
                    (((seedSession room s?).playerState pid).getD freshPS).hitsTaken },
          ?_, rfl, rfl⟩
        simp [lookupPS, setPS]

/-- Closed instance of the place validation theorem: the first placement of
a three-cell span A1-A3 in a fresh session. -/
theorem place_validation_witness :
    (collectCells [{ fromC := "A1", toC := "A3" }] = none ↔
      ¬∃ r1 c1 r2 c2, coordToTuple (Ship.mk "A1" "A3").fromC = some (r1, c1) ∧
        coordToTuple (Ship.mk "A1" "A3").toC = some (r2, c2) ∧ (r1 = r2 ∨ c1 = c2)) ∧
    ((place exRoom none "P1" [{ fromC := "A1", toC := "A3" }]).2 =
        .error .invalidPlacement ↔ collectCells [{ fromC := "A1", toC := "A3" }] = none) ∧
    (∀ cells, collectCells [{ fromC := "A1", toC := "A3" }] = some cells →
      (((place exRoom none "P1" [{ fromC := "A1", toC := "A3" }]).2 = .error .cellOccupied) ↔
        ∃ opp, exRoom.players.find? (fun q => q != "P1") = some opp ∧
          ∃ oppSt, (seedSession exRoom none).playerState opp = some oppSt ∧
            ∃ c ∈ cells, c ∈ oppSt.shipCells) ∧
      ((¬∃ opp, exRoom.players.find? (fun q => q != "P1") = some opp ∧
          ∃ oppSt, (seedSession exRoom none).playerState opp = some oppSt ∧
            ∃ c ∈ cells, c ∈ oppSt.shipCells) →
        (place exRoom none "P1" [{ fromC := "A1", toC := "A3" }]).2 = .ok () ∧
        ∃ ps', lookupPS (place exRoom none "P1" [{ fromC := "A1", toC := "A3" }]).1 "P1" =
          some ps' ∧ ps'.shipCells = cells ∧ ps'.shipsPlaced = true)) :=
  place_validation exRoom none "P1" { fromC := "A1", toC := "A3" } (by decide) (by decide)
    (by decide)

/-- Claim C8 counterexample: place does not canonicalize the coordinate case.  A
lowercase a1 span is rejected InvalidPlacement where the uppercase A1 span
is accepted, while fire does accept the lowercase coordinate b2. -/
theorem place_no_canonicalization_cex :
    (place exRoom none "P1" [{ fromC := "a1", toC := "a1" }]).2 = .error .invalidPlacement ∧
      (place exRoom none "P1" [{ fromC := "A1", toC := "A1" }]).2 = .ok () ∧
      (fire exRoom (some exSt) "P1" "b2").2 =
        .ok { result := .sink, gameOver := true, nextTurn := "P2" } :=
  ⟨rfl, rfl, rfl⟩

/-- Claim C8 amended: only fire canonicalizes its coordinate to uppercase before
validation, so fire treats two coordinates with the same uppercasing
identically and rejects an unparseable coordinate with OutOfBounds; place
performs no canonicalization and simply rejects any span whose cells do not
collect, InvalidPlacement; in the model both are total functions returning
typed errors, mirroring the caught exceptions of the source. -/
theorem coordinate_canonicalization :
    (∀ (room : RoomInfo) (s? : Option RoomGameState) (pid c1 c2 : String),
      toUpperCase c1 = toUpperCase c2 → fire room s? pid c1 = fire room s? pid c2) ∧
    (∀ (room : RoomInfo) (s : RoomGameState) (pid coord opp : String) (oppSt : PlayerState),
      pid ≠ "" → pid ∈ room.players → s.turn = pid →
      room.players.find? (fun q => q != pid) = some opp →
      s.playerState opp = some oppSt → oppSt.shipsPlaced = true →
      coordToTuple (toUpperCase coord) = none →
      fire room (some s) pid coord =
        (some { s with players := room.players }, .error .outOfBounds)) ∧
    (∀ (room : RoomInfo) (s1 : RoomGameState) (pid : String) (ships : List Ship),
      ((s1.playerState pid).getD freshPS).shipsPlaced = false →
      collectCells ships = none →
      placeChecked room s1 pid ships = (some s1, .error .invalidPlacement)) := by
  refine ⟨?_, ?_, ?_⟩
  · intro room s? pid c1 c2 h
    simp only [fire, h]
  · intro room s pid coord opp oppSt hp hm ht hf hps hpl hc
    simp only [fire, if_neg hp, if_pos hm]
    rw [if_neg (by simpa using ht), hf]
    simp only [hps]
    rw [if_pos hpl, hc]
  · intro room s1 pid ships hnp hcc
    simp only [placeChecked]
    rw [if_neg (by simp [hnp]), hcc]

/-- Closed instance of the canonicalization theorem: fire treats b2 as B2,
an unparseable Z9 fires OutOfBounds, and an uncollectable lowercase span is
InvalidPlacement. -/
theorem coordinate_canonicalization_witness :
    fire exRoom (some exSt) "P1" "b2" = fire exRoom (some exSt) "P1" "B2" ∧
      fire exRoom (some exSt) "P1" "Z9" =
        (some { exSt with players := exRoom.players }, .error .outOfBounds) ∧
      placeChecked exRoom (seedSession exRoom none) "P1" [{ fromC := "a1", toC := "a1" }] =
        (some (seedSession exRoom none), .error .invalidPlacement) :=
  ⟨coordinate_canonicalization.1 exRoom (some exSt) "P1" "b2" "B2" (by decide),
    coordinate_canonicalization.2.1 exRoom exSt "P1" "Z9" "P2" exPsB (by decide) (by decide)
      (by decide) (by decide) rfl rfl (by decide),
    coordinate_canonicalization.2.2 exRoom (seedSession exRoom none) "P1"
      [{ fromC := "a1", toC := "a1" }] (by decide) (by decide)⟩

/-- Claim C4 counterexample: the channel fire path does not report the same
result as the request-response fire.  On the concrete session the engine
reply is sink, but the broadcast fire-result event carries hit: the socket
handler recomputes a two-valued hit/miss result instead of re-using the
engine response. -/
theorem socket_sink_collapsed_cex :
    (fire exRoom (some exSt) "P1" "B2").2 =
        .ok { result := .sink, gameOver := true, nextTurn := "P2" } ∧
      (socketFire (some exRoom) (some exRoom) (some exSt) "P1" "B2").2 =
        [ChanEvent.fireResult "P1" "B2" .hit, ChanEvent.gameOverEvt "P1"] ∧
      FireOutcome.hit ≠ FireOutcome.sink :=
  ⟨rfl, rfl, by decide⟩

/-- Claim C4 amended: for a fire accepted by the engine, the channel path is a
re-entry into the same fire operation and broadcasts a fire-result event to
the room carrying the engine result collapsed to hit/miss (sink is reported
as hit), then a turn-change event naming the engine next mover when the
game is not over, or a game-over event naming the shooter as winner when it
is. -/
theorem socket_fire_reentry {room : RoomInfo} {s t : RoomGameState} {shooter coord : String}
    {resp : FireResp} (h : fire room (some s) shooter coord = (some t, .ok resp)) :
    socketFire (some room) (some room) (some s) shooter coord =
      (some t,
        [ChanEvent.fireResult shooter coord (if resp.result = .miss then .miss else .hit)]
          ++ (if resp.gameOver then [] else [ChanEvent.turnChange resp.nextTurn])
          ++ (if resp.gameOver then [ChanEvent.gameOverEvt shooter] else [])) := by
  obtain ⟨s0, opp, oppSt, hs0, hf, hps, hpl, hnext, hne, t0, ht0, htturn, hplayers, hframe,
    oppSt', hlook, hpl', hcells', hres, hgo⟩ := fire_ok_shape h
  obtain rfl : s = s0 := Option.some.inj hs0
  obtain rfl : t = t0 := Option.some.inj ht0
  have hteta : { t with players := room.players } = t := by
    rw [← hplayers]
  simp only [socketFire, fireFull, h, hteta, Option.some_bind]
  simp only [hplayers, hf, hlook]
  by_cases hmem : toUpperCase coord ∈ oppSt.shipCells
  · rw [if_pos hmem] at hres
    have hresult : resp.result ≠ .miss := by
      rw [hres.2]
      split <;> simp
    have hmem' : toUpperCase coord ∈ oppSt'.shipCells := by rw [hcells']; exact hmem
    rw [if_neg hresult]
    have hgo2 : (resp.gameOver = true) ↔ ∀ x ∈ oppSt'.shipCells, x ∈ oppSt'.hitsTaken := by
      rw [hgo]; simp
    by_cases hall : ∀ x ∈ oppSt'.shipCells, x ∈ oppSt'.hitsTaken
    · simp [hmem', hnext, hgo2.mpr hall, if_pos hall]
    · have hgof : resp.gameOver = false := by
        cases hgob : resp.gameOver
        · rfl
        · exact absurd (hgo2.mp hgob) hall
      simp [hmem', hnext, hgof, if_neg hall]
  · rw [if_neg hmem] at hres
    have hmem' : toUpperCase coord ∉ oppSt'.shipCells := by rw [hcells']; exact hmem
    rw [hres.2]
    have hgo2 : (resp.gameOver = true) ↔ ∀ x ∈ oppSt'.shipCells, x ∈ oppSt'.hitsTaken := by
      rw [hgo]; simp
    by_cases hall : ∀ x ∈ oppSt'.shipCells, x ∈ oppSt'.hitsTaken
    · simp [hmem', hnext, hgo2.mpr hall, if_pos hall]
    · have hgof : resp.gameOver = false := by
        cases hgob : resp.gameOver
        · rfl
        · exact absurd (hgo2.mp hgob) hall
      simp [hmem', hnext, hgof, if_neg hall]

/-- Closed instance of the channel re-entry theorem, on the non-terminal
miss by P1 at A2: the channel broadcasts the miss and the turn change to
P2. -/
theorem socket_fire_reentry_witness :
    socketFire (some exRoom) (some exRoom) (some exSt) "P1" "A2" =
      (some { exSt with players := exRoom.players, turn := "P2" },
        [ChanEvent.fireResult "P1" "A2"
            (if (FireResp.mk .miss false "P2").result = .miss then .miss else .hit)]
          ++ (if (FireResp.mk .miss false "P2").gameOver then []
              else [ChanEvent.turnChange (FireResp.mk .miss false "P2").nextTurn])
          ++ (if (FireResp.mk .miss false "P2").gameOver then
                [ChanEvent.gameOverEvt "P1"]
              else [])) := by
  have h : fire exRoom (some exSt) "P1" "A2" =
      (some { exSt with players := exRoom.players, turn := "P2" },
        .ok { result := .miss, gameOver := false, nextTurn := "P2" }) := rfl
  exact socket_fire_reentry h

end Battleship
